import Mathlib

/-!
Verification of the libneo4j-client TOFU known-hosts store (`src/lib/tofu.c`)
and the result-stream record interface (`src/lib/result_stream.h`).

Files are modelled as byte sequences (`List Nat`, one `Nat` per byte).  The C
code reads files with `fgets` into a 1024-byte buffer, so a single read yields
at most 1023 bytes and stops after a newline; this chunking is modelled
exactly.  C strings are NUL-terminated: the view of a buffer as a C string is
its prefix up to the first 0 byte (`cstr`).
-/

set_option maxRecDepth 40000

abbrev Byte := Nat

/-- C `isspace` on the default locale: space, \t, \n, \v, \f, \r. -/
def isspaceB (c : Byte) : Bool := c == 32 || (9 ≤ c && c ≤ 13)

/-- The C-string view of a byte buffer: everything before the first NUL. -/
def cstr (l : List Byte) : List Byte := l.takeWhile (fun c => c ≠ 0)

/-- One `fgets` call with room for `k` data bytes: consume bytes until a
newline has been consumed or `k` bytes were taken.  Returns the bytes read and
the remaining input. -/
def takeLine : Nat → List Byte → List Byte × List Byte
  | _, [] => ([], [])
  | 0, s => ([], s)
  | k + 1, c :: s =>
    if c = 10 then ([c], s)
    else
      match takeLine k s with
      | (a, b) => (c :: a, b)

/-- Repeated `fgets` with a 1024-byte buffer (1023 data bytes per call),
fuelled recursion; the fuel is irrelevant once it is at least the length of
the input. -/
def chunksAux : Nat → List Byte → List (List Byte)
  | _, [] => []
  | 0, _ :: _ => []
  | f + 1, c :: s =>
    match takeLine 1023 (c :: s) with
    | (a, b) => a :: chunksAux f b

/-- The sequence of buffers successive `fgets(line, 1024, stream)` calls read
from a file with the given contents. -/
def chunks (s : List Byte) : List (List Byte) := chunksAux s.length s

/-- Split off one newline-terminated line (no length limit). -/
def takeNL : List Byte → List Byte × List Byte
  | [] => ([], [])
  | c :: s =>
    if c = 10 then ([c], s)
    else
      match takeNL s with
      | (a, b) => (c :: a, b)

def linesAux : Nat → List Byte → List (List Byte)
  | _, [] => []
  | 0, _ :: _ => []
  | f + 1, c :: s =>
    match takeNL (c :: s) with
    | (a, b) => a :: linesAux f b

/-- The newline-delimited lines of a byte sequence (each line keeps its
terminating newline; a final unterminated line is included as-is). -/
def linesOf (s : List Byte) : List (List Byte) := linesAux s.length s

/-- The matching test both `retrieve_stored_fingerprint` and
`update_stored_fingerprint` apply to each buffer read by `fgets`:
`strncmp(line, host, hostlen) == 0 && isspace(line[hostlen])`. -/
def lineMatches (host l : List Byte) : Bool :=
  host.isPrefixOf l &&
    (match l.get? host.length with
     | some c => isspaceB c
     | none => false)

/-- The fingerprint extraction in `retrieve_stored_fingerprint` on a matching
line: start after the host label and the matched whitespace byte, skip further
leading whitespace, trim trailing whitespace, and truncate to the caller's
buffer size minus one. -/
def extractFp (host l : List Byte) (n : Nat) : List Byte :=
  (((((l.drop (host.length + 1)).dropWhile isspaceB).reverse.dropWhile
      isspaceB).reverse).take (n - 1))

/-- The scan loop of `retrieve_stored_fingerprint` over the buffers read by
`fgets`: return the fingerprint extracted from the first matching buffer. -/
def scanChunks (host : List Byte) (n : Nat) : List (List Byte) → Option (List Byte)
  | [] => none
  | l :: ls =>
    let c := cstr l
    if lineMatches host c then some (extractFp host c n) else scanChunks host n ls

/-- Result of `retrieve_stored_fingerprint`: 0 (found, fingerprint in the
buffer), 1 (no entry), or -1 (I/O error). -/
inductive LookupResult
  | found (fp : List Byte)
  | notFound
  | ioError
deriving DecidableEq

/-- Nondeterministic I/O events during a lookup: the open succeeds and the
whole file is read (`okRead`), `fopen` fails with an error other than `ENOENT`
(`openErr`), or reading fails after `k` successful `fgets` calls
(`readErrAt k`). -/
inductive ReadEvent
  | okRead
  | openErr
  | readErrAt (k : Nat)
deriving DecidableEq

/-- `retrieve_stored_fingerprint` from `src/lib/tofu.c`.  `target` is the
contents of the known-hosts file (`none` when absent, giving `ENOENT`), `ev`
the I/O outcome, `host` the label and `n` the caller's buffer size. -/
def retrieve_stored_fingerprint (target : Option (List Byte)) (ev : ReadEvent)
    (host : List Byte) (n : Nat) : LookupResult :=
  match target, ev with
  | none, _ => .notFound
  | some c, .okRead =>
    match scanChunks host n (chunks c) with
    | some fp => .found fp
    | none => .notFound
  | some _, .openErr => .ioError
  | some c, .readErrAt k =>
    match scanChunks host n ((chunks c).take k) with
    | some fp => .found fp
    | none => .ioError

example : chunks [104, 10, 107, 10] = [[104, 10], [107, 10]] := by decide

example :
    retrieve_stored_fingerprint (some [104, 58, 49, 32, 65, 66, 10]) .okRead
      [104, 58, 49] 60 = .found [65, 66] := by decide

/-- The chunks of the original file kept by the rewrite loop of
`update_stored_fingerprint`: every `fgets` buffer whose C-string view matches
`host` plus whitespace is skipped, the rest are copied. -/
def keptChunks (c : List Byte) (host : List Byte) : List (List Byte) :=
  (chunks c).filter (fun l => !(lineMatches host (cstr l)))

/-- The line `fprintf(out_stream, "%s %s\n", host, fingerprint)` appends
(32 is the space, 10 the newline). -/
def entryLine (host fp : List Byte) : List Byte := host ++ (32 :: (fp ++ [10]))

/-- Contents of the temp file after a fully successful rewrite in
`update_stored_fingerprint`: the kept chunks written by `fputs` (which writes
each buffer's C-string view), followed by `fprintf("%s %s\n", host,
fingerprint)`. -/
def replaceContent (target : Option (List Byte)) (host fp : List Byte) : List Byte :=
  (match target with
   | none => []
   | some c => ((keptChunks c host).map cstr).flatten)
  ++ entryLine host fp

/-- Nondeterministic I/O events during `update_stored_fingerprint`, one per
failure site in the C function, plus `success`.  `copyWriteErr k` /
`copyReadErr k` fire in the copy loop after `k` chunks were transferred (and
thus only apply when the input file exists). -/
inductive ReplaceEvent
  | openErr
  | nameTooLong
  | mkdirErr
  | mkstempErr
  | fdopenErr
  | copyWriteErr (k : Nat)
  | copyReadErr (k : Nat)
  | closeInErr
  | appendErr
  | closeOutErr
  | renameErr
  | success
deriving DecidableEq

/-- Observable outcome of `update_stored_fingerprint`: the return value, the
contents of the target file after the call (`none` = absent), whether the
temp file is left behind, and how many file handles remain open. -/
structure ReplaceOutcome where
  ret : Int
  target : Option (List Byte)
  tempLeft : Bool
  openHandles : Nat
deriving DecidableEq

/-- Mirrors the `failure:` label of `update_stored_fingerprint`: `fclose` the
input stream if open, `fclose`/`close` the output stream or fd if open,
`unlink` the temp file if it was created, and return -1.  The target file is
only ever written by the final `rename`, so it is untouched on this path.
The three flags record which resources were live at the failing site. -/
def updateFailure (target : Option (List Byte))
    (_inOpen _outOpen _tempCreated : Bool) : ReplaceOutcome :=
  { ret := -1, target := target, tempLeft := false, openHandles := 0 }

/-- The fully successful path of `update_stored_fingerprint`: the temp file is
renamed over the target, so the target now holds the rewritten contents and
the temp name no longer exists. -/
def updateSuccess (target : Option (List Byte)) (host fp : List Byte) : ReplaceOutcome :=
  { ret := 0, target := some (replaceContent target host fp),
    tempLeft := false, openHandles := 0 }

/-- `update_stored_fingerprint` from `src/lib/tofu.c`.  `target` is the
current contents of the known-hosts file (`none` = absent, in which case
`fopen` fails with `ENOENT` and the copy loop is skipped), `ev` selects which
I/O step (if any) fails.  Events inside the copy phase cannot fire when the
input file is absent and then degrade to the success path. -/
def update_stored_fingerprint (target : Option (List Byte)) (host fp : List Byte)
    (ev : ReplaceEvent) : ReplaceOutcome :=
  match ev with
  | .openErr => { ret := -1, target := target, tempLeft := false, openHandles := 0 }
  | .nameTooLong => updateFailure target target.isSome false false
  | .mkdirErr => updateFailure target target.isSome false false
  | .mkstempErr => updateFailure target target.isSome false false
  | .fdopenErr => updateFailure target target.isSome true true
  | .copyWriteErr _ =>
    if target.isSome then updateFailure target true true true
    else updateSuccess target host fp
  | .copyReadErr _ =>
    if target.isSome then updateFailure target true true true
    else updateSuccess target host fp
  | .closeInErr =>
    if target.isSome then updateFailure target true true true
    else updateSuccess target host fp
  | .appendErr => updateFailure target false true true
  | .closeOutErr => updateFailure target false true true
  | .renameErr => updateFailure target false false true
  | .success => updateSuccess target host fp

example :
    (update_stored_fingerprint none [104, 58, 49] [65, 66] .success).target
      = some [104, 58, 49, 32, 65, 66, 10] := by decide

/-- Reason passed to the unverified-host callback. -/
inductive Reason
  | unrecognized
  | mismatch
deriving DecidableEq

/-- Modelled from the spec: callback action codes
(`NEO4J_HOST_VERIFICATION_TRUST` / `..._ACCEPT_ONCE`; the defining header
`neo4j-client.h` is not part of the fragment, only their use in `tofu.c`).
The spec makes the return values a closed enumeration TRUST / ACCEPT_ONCE /
REJECT-by-default; the control flow in `tofu.c` only compares the callback's
result against the two named constants, so their concrete values are
irrelevant as long as they are distinct. -/
def HOST_VERIFICATION_TRUST : Int := 2

/-- Modelled from the spec: see `HOST_VERIFICATION_TRUST`. -/
def HOST_VERIFICATION_ACCEPT_ONCE : Int := 1

/-- Decimal digit rendering used by `snprintf(host, ..., "%s:%d", hostname,
port)` for a nonnegative port. -/
def decimalDigits (fuel n : Nat) : List Byte :=
  match fuel with
  | 0 => []
  | f + 1 =>
    if n < 10 then [48 + n] else decimalDigits f (n / 10) ++ [48 + n % 10]

/-- The host label `"<hostname>:<port>"` composed by `neo4j_check_known_hosts`
(58 is ':'). -/
def hostLabel (hostname : List Byte) (port : Nat) : List Byte :=
  hostname ++ 58 :: decimalDigits (port + 1) port

example : hostLabel [104] 7687 = [104, 58, 55, 54, 56, 55] := by decide

/-- Observable outcome of `neo4j_check_known_hosts`: the return value, the
known-hosts file contents after the call, whether the unverified-host
callback ran, and whether the store was opened at all. -/
structure CheckOutcome where
  ret : Int
  fileAfter : Option (List Byte)
  callbackInvoked : Bool
  storeRead : Bool
deriving DecidableEq

/-- `neo4j_check_known_hosts` from `src/lib/tofu.c`.

`hostname` and `fingerprint` are the C-string contents of the corresponding
arguments (NUL-free byte lists); `garbage` is the (uninitialized) contents of
the stack buffer `existing` as a C string, which the code compares against
when `retrieve_stored_fingerprint` did not write to it; `fileBefore` is the
known-hosts file contents; `rev`/`uev` select the I/O outcomes of the lookup
and of a possible update; `callback` is `config->unverified_host_callback`
(abstracted to its returned action as a function of the passed reason).

The `REQUIRE(strlen(hostname) < 256 && hostname[0] != '\0', -1)` guard is
modelled from the spec as an early return of -1 (the `REQUIRE` macro lives in
`util.h`, which is not part of the fragment); the default-path resolution via
`neo4j_dot_dir` is abstracted away by working with file contents instead of
file names. -/
def neo4j_check_known_hosts (hostname : List Byte) (port : Nat)
    (fingerprint garbage : List Byte) (fileBefore : Option (List Byte))
    (rev : ReadEvent) (callback : Option (Reason → Int)) (uev : ReplaceEvent) :
    CheckOutcome :=
  if ¬(hostname.length < 256 ∧ hostname ≠ []) then
    { ret := -1, fileAfter := fileBefore, callbackInvoked := false, storeRead := false }
  else
    let host := hostLabel hostname port
    let lr := retrieve_stored_fingerprint fileBefore rev host 60
    let existing : List Byte :=
      match lr with
      | .found e => e
      | _ => garbage
    let r0 : Int :=
      match lr with
      | .found _ => 0
      | .notFound => 1
      | .ioError => -1
    if r0 > 0 ∨ fingerprint ≠ existing then
      match callback with
      | none =>
        { ret := 1, fileAfter := fileBefore, callbackInvoked := false, storeRead := true }
      | some cb =>
        let reason := if r0 = 0 then Reason.mismatch else Reason.unrecognized
        let action := cb reason
        if action = HOST_VERIFICATION_TRUST then
          let u := update_stored_fingerprint fileBefore host fingerprint uev
          if u.ret ≠ 0 then
            { ret := -1, fileAfter := u.target, callbackInvoked := true, storeRead := true }
          else
            { ret := 0, fileAfter := u.target, callbackInvoked := true, storeRead := true }
        else if action = HOST_VERIFICATION_ACCEPT_ONCE then
          { ret := 0, fileAfter := fileBefore, callbackInvoked := true, storeRead := true }
        else
          { ret := 1, fileAfter := fileBefore, callbackInvoked := true, storeRead := true }
    else
      { ret := r0, fileAfter := fileBefore, callbackInvoked := false, storeRead := true }

example :
    neo4j_check_known_hosts [104] 1 [65, 66] [] (some [104, 58, 49, 32, 65, 66, 10])
      .okRead none .success
      = { ret := 0, fileAfter := some [104, 58, 49, 32, 65, 66, 10],
          callbackInvoked := false, storeRead := true } := by decide

/-- Modelled from the spec: the value model of the result stream (the tagged
sum of §3 of the spec; the implementing C files for values and records are
not part of the fragment, only the interface header
`src/lib/result_stream.h`). Only the null constructor matters for the field
access contract. -/
inductive Neo4jValue
  | null
  | boolean (b : Bool)
  | integer (z : Int)
  | string (s : List Byte)
  | listV (n : Nat)
deriving DecidableEq

/-- Modelled from the spec: a record (result) is an ordered sequence of
`nfields` values (spec §3, "Record"), matching the documented contract of
`neo4j_result.field` in `src/lib/result_stream.h`. -/
structure Neo4jResult where
  fields : List Neo4jValue
deriving DecidableEq

/-- Modelled from the spec: `neo4j_result.field` — "Get a field from a
result. @return The field from the result, or `neo4j_null` if index is out of
bounds." (`src/lib/result_stream.h`). -/
def Neo4jResult.field (r : Neo4jResult) (i : Nat) : Neo4jValue :=
  match r.fields.get? i with
  | some v => v
  | none => Neo4jValue.null


/-! ### Structure lemmas for the `fgets` chunking -/

/-- A wellformed stored line: newline-terminated, short enough for a single
1024-byte `fgets` read, and free of interior newlines and of NUL bytes. -/
def WFLine (l : List Byte) : Prop :=
  ∃ body, l = body ++ [10] ∧ body.length < 1023 ∧ ∀ c ∈ body, c ≠ 10 ∧ c ≠ 0

/-- A newline-terminated line with no interior newline (no length bound). -/
def NLLine (l : List Byte) : Prop :=
  ∃ body, l = body ++ [10] ∧ ∀ c ∈ body, c ≠ 10

theorem WFLine.toNLLine {l : List Byte} (h : WFLine l) : NLLine l := by
  obtain ⟨body, rfl, _, hb⟩ := h
  exact ⟨body, rfl, fun c hc => (hb c hc).1⟩

theorem WFLine.ne_zero {l : List Byte} (h : WFLine l) : ∀ c ∈ l, c ≠ 0 := by
  obtain ⟨body, rfl, _, hb⟩ := h
  intro c hc
  rcases List.mem_append.mp hc with h1 | h1
  · exact (hb c h1).2
  · simp only [List.mem_singleton] at h1
    subst h1
    decide

theorem takeLine_snd_length (k : Nat) (s : List Byte) :
    (takeLine k s).2.length ≤ s.length := by
  induction s generalizing k with
  | nil => cases k <;> simp [takeLine]
  | cons c s ih =>
    cases k with
    | zero => simp [takeLine]
    | succ k =>
      by_cases hc : c = 10
      · simp [takeLine, hc]
      · have := ih k
        simp only [takeLine, if_neg hc]
        cases h : takeLine k s with
        | mk a b =>
          rw [h] at this
          simpa using Nat.le_succ_of_le this

theorem takeNL_snd_length (s : List Byte) :
    (takeNL s).2.length ≤ s.length := by
  induction s with
  | nil => simp [takeNL]
  | cons c s ih =>
    by_cases hc : c = 10
    · simp [takeNL, hc]
    · simp only [takeNL, if_neg hc]
      cases h : takeNL s with
      | mk a b =>
        rw [h] at ih
        simpa using Nat.le_succ_of_le ih

theorem takeLine_cons_snd (k : Nat) (c : Byte) (s : List Byte) :
    (takeLine (k + 1) (c :: s)).2.length ≤ s.length := by
  by_cases hc : c = 10
  · simp [takeLine, hc]
  · simp only [takeLine, if_neg hc]
    have h1 := takeLine_snd_length k s
    cases h : takeLine k s with
    | mk a b =>
      rw [h] at h1
      simpa using h1

theorem takeNL_cons_snd (c : Byte) (s : List Byte) :
    (takeNL (c :: s)).2.length ≤ s.length := by
  by_cases hc : c = 10
  · simp [takeNL, hc]
  · simp only [takeNL, if_neg hc]
    have h1 := takeNL_snd_length s
    cases h : takeNL s with
    | mk a b =>
      rw [h] at h1
      simpa using h1

theorem chunksAux_congr (f g : Nat) (s : List Byte)
    (hf : s.length ≤ f) (hg : s.length ≤ g) :
    chunksAux f s = chunksAux g s := by
  induction f generalizing g s with
  | zero =>
    have hs : s = [] := List.length_eq_zero.mp (Nat.le_zero.mp hf)
    subst hs
    cases g <;> simp [chunksAux]
  | succ f ih =>
    cases s with
    | nil => cases g <;> simp [chunksAux]
    | cons c s =>
      cases g with
      | zero => simp at hg
      | succ g =>
        have hsnd : (takeLine 1023 (c :: s)).2.length ≤ s.length :=
          takeLine_cons_snd 1022 c s
        simp only [chunksAux]
        cases h : takeLine 1023 (c :: s) with
        | mk a b =>
          rw [h] at hsnd
          simp only [List.length_cons] at hf hg
          simp only at hsnd
          exact congrArg (a :: ·)
            (ih g b (Nat.le_trans hsnd (by omega)) (Nat.le_trans hsnd (by omega)))

theorem linesAux_congr (f g : Nat) (s : List Byte)
    (hf : s.length ≤ f) (hg : s.length ≤ g) :
    linesAux f s = linesAux g s := by
  induction f generalizing g s with
  | zero =>
    have hs : s = [] := List.length_eq_zero.mp (Nat.le_zero.mp hf)
    subst hs
    cases g <;> simp [linesAux]
  | succ f ih =>
    cases s with
    | nil => cases g <;> simp [linesAux]
    | cons c s =>
      cases g with
      | zero => simp at hg
      | succ g =>
        have hsnd : (takeNL (c :: s)).2.length ≤ s.length := takeNL_cons_snd c s
        simp only [linesAux]
        cases h : takeNL (c :: s) with
        | mk a b =>
          rw [h] at hsnd
          simp only [List.length_cons] at hf hg
          simp only at hsnd
          exact congrArg (a :: ·)
            (ih g b (Nat.le_trans hsnd (by omega)) (Nat.le_trans hsnd (by omega)))


theorem takeLine_line (k : Nat) (body rest : List Byte)
    (hb : ∀ c ∈ body, c ≠ 10) (hk : body.length < k) :
    takeLine k (body ++ 10 :: rest) = (body ++ [10], rest) := by
  induction body generalizing k with
  | nil =>
    cases k with
    | zero => omega
    | succ k => simp [takeLine]
  | cons c b ih =>
    cases k with
    | zero => omega
    | succ k =>
      have hc : c ≠ 10 := hb c (by simp)
      have hrec : takeLine k (b ++ 10 :: rest) = (b ++ [10], rest) :=
        ih k (fun d hd => hb d (by simp [hd])) (by
          simp only [List.length_cons] at hk
          omega)
      simp only [List.cons_append, takeLine, if_neg hc, List.append_eq, hrec]

theorem takeNL_line (body rest : List Byte) (hb : ∀ c ∈ body, c ≠ 10) :
    takeNL (body ++ 10 :: rest) = (body ++ [10], rest) := by
  induction body with
  | nil => simp [takeNL]
  | cons c b ih =>
    have hc : c ≠ 10 := hb c (by simp)
    have hrec : takeNL (b ++ 10 :: rest) = (b ++ [10], rest) :=
      ih fun d hd => hb d (by simp [hd])
    simp only [List.cons_append, takeNL, if_neg hc, List.append_eq, hrec]

theorem chunksAux_line_cons (f : Nat) (body rest : List Byte)
    (hb : ∀ c ∈ body, c ≠ 10) (hlen : body.length < 1023) :
    chunksAux (f + 1) (body ++ 10 :: rest) = (body ++ [10]) :: chunksAux f rest := by
  have htl : takeLine 1023 (body ++ 10 :: rest) = (body ++ [10], rest) :=
    takeLine_line 1023 body rest hb hlen
  cases body with
  | nil =>
    simp only [List.nil_append] at htl ⊢
    simp only [chunksAux, htl]
  | cons c bs =>
    simp only [List.cons_append] at htl ⊢
    simp only [chunksAux, htl]

theorem linesAux_line_cons (f : Nat) (body rest : List Byte)
    (hb : ∀ c ∈ body, c ≠ 10) :
    linesAux (f + 1) (body ++ 10 :: rest) = (body ++ [10]) :: linesAux f rest := by
  have htl : takeNL (body ++ 10 :: rest) = (body ++ [10], rest) :=
    takeNL_line body rest hb
  cases body with
  | nil =>
    simp only [List.nil_append] at htl ⊢
    simp only [linesAux, htl]
  | cons c bs =>
    simp only [List.cons_append] at htl ⊢
    simp only [linesAux, htl]

theorem chunks_line_cons (l rest : List Byte) (h : WFLine l) :
    chunks (l ++ rest) = l :: chunks rest := by
  obtain ⟨body, rfl, hlen, hb⟩ := h
  have hb10 : ∀ c ∈ body, c ≠ 10 := fun c hc => (hb c hc).1
  unfold chunks
  have hL : ((body ++ [10]) ++ rest).length = body.length + rest.length + 1 := by
    simp [List.length_append]
    omega
  have hrw : (body ++ [10]) ++ rest = body ++ 10 :: rest := by simp
  rw [hL, hrw, chunksAux_line_cons (body.length + rest.length) body rest hb10 hlen]
  congr 1
  exact chunksAux_congr _ _ _ (by omega) (Nat.le_refl _)

theorem linesOf_line_cons (l rest : List Byte) (h : NLLine l) :
    linesOf (l ++ rest) = l :: linesOf rest := by
  obtain ⟨body, rfl, hb10⟩ := h
  unfold linesOf
  have hL : ((body ++ [10]) ++ rest).length = body.length + rest.length + 1 := by
    simp [List.length_append]
    omega
  have hrw : (body ++ [10]) ++ rest = body ++ 10 :: rest := by simp
  rw [hL, hrw, linesAux_line_cons (body.length + rest.length) body rest hb10]
  congr 1
  exact linesAux_congr _ _ _ (by omega) (Nat.le_refl _)

theorem chunks_flatten_append (ls : List (List Byte)) (rest : List Byte)
    (h : ∀ l ∈ ls, WFLine l) :
    chunks (ls.flatten ++ rest) = ls ++ chunks rest := by
  induction ls with
  | nil => simp
  | cons l ls ih =>
    have h1 : WFLine l := h l (by simp)
    have h2 : ∀ x ∈ ls, WFLine x := fun x hx => h x (by simp [hx])
    calc chunks ((l :: ls).flatten ++ rest)
        = chunks (l ++ (ls.flatten ++ rest)) := by simp
      _ = l :: chunks (ls.flatten ++ rest) := chunks_line_cons _ _ h1
      _ = l :: (ls ++ chunks rest) := by rw [ih h2]
      _ = (l :: ls) ++ chunks rest := rfl

theorem linesOf_flatten_append (ls : List (List Byte)) (rest : List Byte)
    (h : ∀ l ∈ ls, NLLine l) :
    linesOf (ls.flatten ++ rest) = ls ++ linesOf rest := by
  induction ls with
  | nil => simp
  | cons l ls ih =>
    have h1 : NLLine l := h l (by simp)
    have h2 : ∀ x ∈ ls, NLLine x := fun x hx => h x (by simp [hx])
    calc linesOf ((l :: ls).flatten ++ rest)
        = linesOf (l ++ (ls.flatten ++ rest)) := by simp
      _ = l :: linesOf (ls.flatten ++ rest) := linesOf_line_cons _ _ h1
      _ = l :: (ls ++ linesOf rest) := by rw [ih h2]
      _ = (l :: ls) ++ linesOf rest := rfl

theorem cstr_eq_self (l : List Byte) (h : ∀ c ∈ l, c ≠ 0) : cstr l = l := by
  induction l with
  | nil => rfl
  | cons c s ih =>
    have hc : c ≠ 0 := h c (by simp)
    have hs : cstr s = s := ih fun d hd => h d (by simp [hd])
    simp only [cstr, List.takeWhile_cons] at hs ⊢
    simp [hc, hs]
    exact fun x hx => by simpa using h x (List.mem_cons_of_mem c hx)

theorem dropWhile_eq_self_of_forall {p : Byte → Bool} (l : List Byte)
    (h : ∀ c ∈ l, p c = false) : l.dropWhile p = l := by
  cases l with
  | nil => rfl
  | cons c s =>
    have hc : p c = false := h c (by simp)
    simp [List.dropWhile_cons, hc]

/-! ### The appended entry line and the lookup scan -/

theorem entryLine_WFLine (host fp : List Byte)
    (hhost : ∀ b ∈ host, b ≠ 10 ∧ b ≠ 0)
    (hfp : ∀ b ∈ fp, isspaceB b = false ∧ b ≠ 0)
    (hfit : host.length + 1 + fp.length + 1 ≤ 1023) :
    WFLine (entryLine host fp) := by
  refine ⟨host ++ 32 :: fp, by simp [entryLine], by simp; omega, ?_⟩
  intro c hc
  rcases List.mem_append.mp hc with h1 | h1
  · exact hhost c h1
  · rcases List.mem_cons.mp h1 with h2 | h2
    · subst h2
      decide
    · have h3 := hfp c h2
      refine ⟨fun h4 => ?_, h3.2⟩
      subst h4
      simp [isspaceB] at h3
  
theorem lineMatches_entry (host fp : List Byte) :
    lineMatches host (entryLine host fp) = true := by
  have hpre : host.isPrefixOf (entryLine host fp) = true := by
    rw [List.isPrefixOf_iff_prefix]
    exact ⟨32 :: (fp ++ [10]), rfl⟩
  have hget : (entryLine host fp).get? host.length = some 32 := by
    have h1 : (host ++ (32 :: (fp ++ [10]))).get? host.length
        = (32 :: (fp ++ [10])).get? (host.length - host.length) :=
      List.get?_append_right (Nat.le_refl _)
    unfold entryLine
    simpa using h1
  unfold lineMatches
  rw [hpre, hget]
  decide

theorem extract_entry (host fp : List Byte) (n : Nat)
    (hfp : ∀ b ∈ fp, isspaceB b = false) :
    extractFp host (entryLine host fp) n = fp.take (n - 1) := by
  have hdrop : (entryLine host fp).drop (host.length + 1) = fp ++ [10] := by
    unfold entryLine
    have h1 : host ++ (32 :: (fp ++ [10])) = (host ++ [32]) ++ (fp ++ [10]) := by simp
    rw [h1]
    have hlen : host.length + 1 = (host ++ [32]).length := by simp
    rw [hlen]
    exact List.drop_left _ _
  unfold extractFp
  rw [hdrop]
  cases fp with
  | nil =>
    simp [List.dropWhile, isspaceB]
  | cons c fp' =>
    have hc : isspaceB c = false := hfp c (by simp)
    have hdw : ((c :: fp') ++ [10]).dropWhile isspaceB = (c :: fp') ++ [10] := by
      simp [List.dropWhile_cons, hc]
    rw [hdw]
    have hrev : ((c :: fp') ++ [10]).reverse = 10 :: (c :: fp').reverse := by simp
    rw [hrev]
    have hdw2 : (10 :: (c :: fp').reverse).dropWhile isspaceB
        = (c :: fp').reverse.dropWhile isspaceB := by
      simp [List.dropWhile_cons, isspaceB]
    rw [hdw2, dropWhile_eq_self_of_forall _ (by
      intro d hd
      rw [List.mem_reverse] at hd
      exact hfp d hd)]
    simp

theorem scanChunks_skip (host : List Byte) (n : Nat) (cs ds : List (List Byte))
    (h : ∀ l ∈ cs, lineMatches host (cstr l) = false) :
    scanChunks host n (cs ++ ds) = scanChunks host n ds := by
  induction cs with
  | nil => rfl
  | cons l ls ih =>
    have h1 : lineMatches host (cstr l) = false := h l (by simp)
    show scanChunks host n (l :: (ls ++ ds)) = _
    simp only [scanChunks, h1]
    exact ih fun x hx => h x (by simp [hx])

theorem scanChunks_hit (host : List Byte) (n : Nat) (l : List Byte)
    (ds : List (List Byte)) (h : lineMatches host (cstr l) = true) :
    scanChunks host n (l :: ds) = some (extractFp host (cstr l) n) := by
  simp only [scanChunks, h]
  rfl

/-- The known-hosts file holds a wellformed entry for `label` with fingerprint
`fp`: some wellformed non-matching lines, then the entry line, then arbitrary
further bytes. -/
def StoreHolds (c label fp : List Byte) : Prop :=
  ∃ (pre : List (List Byte)) (post : List Byte),
    (∀ l ∈ pre, WFLine l ∧ lineMatches label l = false) ∧
    c = pre.flatten ++ entryLine label fp ++ post ∧
    label.length + 1 + fp.length + 1 ≤ 1023 ∧
    (∀ b ∈ label, b ≠ 10 ∧ b ≠ 0) ∧
    (∀ b ∈ fp, isspaceB b = false ∧ b ≠ 0)

theorem retrieve_of_StoreHolds (c label fp : List Byte) (n : Nat)
    (h : StoreHolds c label fp) :
    retrieve_stored_fingerprint (some c) .okRead label n = .found (fp.take (n - 1)) := by
  obtain ⟨pre, post, hpre, rfl, hfit, hlabel, hfp⟩ := h
  have hwfe : WFLine (entryLine label fp) :=
    entryLine_WFLine label fp hlabel hfp hfit
  have hflat : pre.flatten ++ entryLine label fp ++ post
      = (pre ++ [entryLine label fp]).flatten ++ post := by
    simp
  have hchunks : chunks ((pre ++ [entryLine label fp]).flatten ++ post)
      = (pre ++ [entryLine label fp]) ++ chunks post := by
    apply chunks_flatten_append
    intro l hl
    rcases List.mem_append.mp hl with h1 | h1
    · exact (hpre l h1).1
    · simp only [List.mem_singleton] at h1
      subst h1
      exact hwfe
  have hcstr : cstr (entryLine label fp) = entryLine label fp :=
    cstr_eq_self _ hwfe.ne_zero
  have hscan : scanChunks label n (chunks (pre.flatten ++ entryLine label fp ++ post))
      = some (fp.take (n - 1)) := by
    rw [hflat, hchunks]
    have hassoc : (pre ++ [entryLine label fp]) ++ chunks post
        = pre ++ (entryLine label fp :: chunks post) := by simp
    rw [hassoc]
    rw [scanChunks_skip label n pre _ (fun l hl => by
      rw [cstr_eq_self l ((hpre l hl).1.ne_zero)]
      exact (hpre l hl).2)]
    rw [scanChunks_hit label n _ _ (by rw [hcstr]; exact lineMatches_entry label fp)]
    rw [hcstr, extract_entry label fp n (fun b hb => (hfp b hb).1)]
  show retrieve_stored_fingerprint (some (pre.flatten ++ entryLine label fp ++ post))
      .okRead label n = _
  simp only [retrieve_stored_fingerprint, hscan]

/-! ### Outcome analysis of `update_stored_fingerprint` -/

theorem update_fail_frame (target : Option (List Byte)) (host fp : List Byte)
    (ev : ReplaceEvent) (h : (update_stored_fingerprint target host fp ev).ret ≠ 0) :
    update_stored_fingerprint target host fp ev
      = { ret := -1, target := target, tempLeft := false, openHandles := 0 } := by
  cases ev <;>
    simp_all [update_stored_fingerprint, updateFailure, updateSuccess] <;>
    (cases target <;> simp_all)

theorem update_ret_zero (target : Option (List Byte)) (host fp : List Byte)
    (ev : ReplaceEvent) (h : (update_stored_fingerprint target host fp ev).ret = 0) :
    update_stored_fingerprint target host fp ev = updateSuccess target host fp := by
  cases ev <;>
    simp_all [update_stored_fingerprint, updateFailure, updateSuccess] <;>
    (cases target <;> simp_all)

/-- The filtered lines of a wellformed file: `keptChunks` computed on the
concatenation of wellformed lines is the plain filter over those lines. -/
theorem keptChunks_flatten (ls : List (List Byte)) (host : List Byte)
    (h : ∀ l ∈ ls, WFLine l) :
    keptChunks ls.flatten host = ls.filter (fun l => !(lineMatches host l)) := by
  unfold keptChunks
  have hch : chunks ls.flatten = ls := by
    have h1 := chunks_flatten_append ls [] h
    rw [List.append_nil] at h1
    have h2 : chunks ([] : List Byte) = [] := rfl
    rw [h2, List.append_nil] at h1
    exact h1
  rw [hch]
  apply List.filter_congr
  intro l hl
  rw [cstr_eq_self l ((h l hl).ne_zero)]

/-- On a wellformed file, the rewritten contents are the non-matching lines
followed by the new entry line. -/
theorem replaceContent_flatten (ls : List (List Byte)) (host fp : List Byte)
    (h : ∀ l ∈ ls, WFLine l) :
    replaceContent (some ls.flatten) host fp
      = (ls.filter (fun l => !(lineMatches host l))).flatten ++ entryLine host fp := by
  show ((keptChunks ls.flatten host).map cstr).flatten ++ entryLine host fp = _
  rw [keptChunks_flatten ls host h]
  have hid : (ls.filter (fun l => !(lineMatches host l))).map cstr
      = ls.filter (fun l => !(lineMatches host l)) := by
    have : ∀ l ∈ ls.filter (fun l => !(lineMatches host l)), cstr l = l := by
      intro l hl
      exact cstr_eq_self l ((h l (List.mem_of_mem_filter hl)).ne_zero)
    calc (ls.filter (fun l => !(lineMatches host l))).map cstr
        = (ls.filter (fun l => !(lineMatches host l))).map id :=
          List.map_congr_left this
      _ = _ := List.map_id _
  rw [hid]

/-- After a successful rewrite, looking the label up in the rewritten file
finds the new fingerprint, truncated to the lookup buffer. -/
theorem retrieve_replace (target : Option (List Byte)) (label fp : List Byte) (n : Nat)
    (hwf : target = none ∨
      ∃ ls : List (List Byte), target = some ls.flatten ∧ ∀ l ∈ ls, WFLine l)
    (hlabel : ∀ b ∈ label, b ≠ 10 ∧ b ≠ 0)
    (hfp : ∀ b ∈ fp, isspaceB b = false ∧ b ≠ 0)
    (hfit : label.length + 1 + fp.length + 1 ≤ 1023) :
    retrieve_stored_fingerprint (some (replaceContent target label fp)) .okRead label n
      = .found (fp.take (n - 1)) := by
  apply retrieve_of_StoreHolds
  rcases hwf with rfl | ⟨ls, rfl, hls⟩
  · refine ⟨[], [], by simp, ?_, hfit, hlabel, hfp⟩
    show replaceContent none label fp = [].flatten ++ entryLine label fp ++ []
    simp [replaceContent]
  · refine ⟨ls.filter (fun l => !(lineMatches label l)), [], ?_, ?_, hfit, hlabel, hfp⟩
    · intro l hl
      have hmem := List.mem_of_mem_filter hl
      have hprop := List.of_mem_filter hl
      simp only [Bool.not_eq_true'] at hprop
      exact ⟨hls l hmem, hprop⟩
    · rw [replaceContent_flatten ls label fp hls]
      simp

/-- After a successful rewrite of a wellformed file, the lines of the new file
are the kept lines followed by the new entry line. -/
theorem linesOf_replace (ls : List (List Byte)) (label fp : List Byte)
    (h : ∀ l ∈ ls, WFLine l)
    (hlabel : ∀ b ∈ label, b ≠ 10 ∧ b ≠ 0)
    (hfp : ∀ b ∈ fp, isspaceB b = false ∧ b ≠ 0)
    (hfit : label.length + 1 + fp.length + 1 ≤ 1023) :
    linesOf (replaceContent (some ls.flatten) label fp)
      = ls.filter (fun l => !(lineMatches label l)) ++ [entryLine label fp] := by
  rw [replaceContent_flatten ls label fp h]
  have hwfe : WFLine (entryLine label fp) := entryLine_WFLine label fp hlabel hfp hfit
  have hstep : linesOf ((ls.filter (fun l => !(lineMatches label l))).flatten
      ++ entryLine label fp)
      = ls.filter (fun l => !(lineMatches label l)) ++ linesOf (entryLine label fp) := by
    apply linesOf_flatten_append
    intro l hl
    exact (h l (List.mem_of_mem_filter hl)).toNLLine
  rw [hstep]
  have hone : linesOf (entryLine label fp) = [entryLine label fp] := by
    have h1 := linesOf_line_cons (entryLine label fp) [] hwfe.toNLLine
    rw [List.append_nil] at h1
    have h2 : linesOf ([] : List Byte) = [] := rfl
    rw [h2] at h1
    exact h1
  rw [hone]

/-- A line matched by one whitespace-free label cannot be matched by a
different whitespace-free label: the labels would have to agree byte-for-byte
up to the shorter one's length, and the byte after the shorter label in the
line is whitespace, which cannot occur inside the longer label. -/
theorem lineMatches_iff (host L : List Byte) :
    lineMatches host L = true ↔
      host <+: L ∧ ∃ w, L.get? host.length = some w ∧ isspaceB w = true := by
  unfold lineMatches
  constructor
  · intro h
    rw [Bool.and_eq_true] at h
    obtain ⟨ha, hb⟩ := h
    refine ⟨List.isPrefixOf_iff_prefix.mp ha, ?_⟩
    cases hL : L.get? host.length with
    | none =>
      rw [hL] at hb
      simp at hb
    | some w =>
      rw [hL] at hb
      exact ⟨w, rfl, hb⟩
  · rintro ⟨ha, w, hw, hsp⟩
    rw [Bool.and_eq_true]
    refine ⟨List.isPrefixOf_iff_prefix.mpr ha, ?_⟩
    rw [hw]
    exact hsp

theorem lineMatches_disjoint (host1 host2 L : List Byte)
    (h1 : ∀ c ∈ host1, isspaceB c = false)
    (h2 : ∀ c ∈ host2, isspaceB c = false)
    (hne : host1 ≠ host2)
    (hm : lineMatches host2 L = true) :
    lineMatches host1 L = false := by
  obtain ⟨hpre2, w2, hw2, hsp2⟩ := (lineMatches_iff host2 L).mp hm
  by_contra hcon
  rw [Bool.not_eq_false] at hcon
  obtain ⟨hpre1, w1, hw1, hsp1⟩ := (lineMatches_iff host1 L).mp hcon
  have htake1 : host1 = L.take host1.length := List.prefix_iff_eq_take.mp hpre1
  have htake2 : host2 = L.take host2.length := List.prefix_iff_eq_take.mp hpre2
  rcases Nat.lt_trichotomy host1.length host2.length with hlt | heq | hgt
  · -- the byte of L at index |host1| lies inside host2, yet must be whitespace
    have hg : host2.get? host1.length = L.get? host1.length := by
      rw [htake2]
      exact List.get?_take hlt
    rw [hw1] at hg
    have hmem : w1 ∈ host2 := List.get?_mem hg
    rw [h2 w1 hmem] at hsp1
    exact Bool.false_ne_true hsp1
  · -- equal lengths force equal labels
    apply hne
    rw [htake1, htake2, heq]
  · -- the byte of L at index |host2| lies inside host1, yet is whitespace
    have hg : host1.get? host2.length = L.get? host2.length := by
      rw [htake1]
      exact List.get?_take hgt
    rw [hw2] at hg
    have hmem : w2 ∈ host1 := List.get?_mem hg
    rw [h1 w2 hmem] at hsp2
    exact Bool.false_ne_true hsp2

/-! ### Claims -/

/-- C9: for every record and every field index `i`, an out-of-range index
(`i ≥ nfields`) makes `field(i)` return the null value rather than an error,
and an in-range index returns the `i`-th value. -/
theorem c9_result_field_contract (r : Neo4jResult) (i : Nat) :
    (r.fields.length ≤ i → r.field i = Neo4jValue.null) ∧
    ∀ h : i < r.fields.length, r.field i = r.fields.get ⟨i, h⟩ := by
  constructor
  · intro h
    unfold Neo4jResult.field
    rw [List.get?_eq_none.mpr h]
  · intro h
    unfold Neo4jResult.field
    rw [List.get?_eq_get h]

theorem c9_result_field_contract_witness :
    (Neo4jResult.mk [Neo4jValue.integer 1, Neo4jValue.null]).fields.length ≤ 5 ∧
    (Neo4jResult.mk [Neo4jValue.integer 1, Neo4jValue.null]).field 5 = Neo4jValue.null :=
  ⟨by decide, (c9_result_field_contract (Neo4jResult.mk
    [Neo4jValue.integer 1, Neo4jValue.null]) 5).1 (by decide)⟩

/-- C10: `neo4j_check_known_hosts` enforces the hostname precondition: an
empty hostname, or one of 256 bytes or more, makes the call return -1
immediately, without reading or writing the known-hosts store and without
invoking the callback. -/
theorem c10_hostname_guard (hostname : List Byte) (port : Nat)
    (fingerprint garbage : List Byte) (fileBefore : Option (List Byte))
    (rev : ReadEvent) (callback : Option (Reason → Int)) (uev : ReplaceEvent)
    (hbad : hostname = [] ∨ 256 ≤ hostname.length) :
    neo4j_check_known_hosts hostname port fingerprint garbage fileBefore rev callback uev
      = { ret := -1, fileAfter := fileBefore, callbackInvoked := false,
          storeRead := false } := by
  have hcond : ¬(hostname.length < 256 ∧ hostname ≠ []) := by
    rintro ⟨hlen, hne⟩
    rcases hbad with h | h
    · exact hne h
    · omega
  unfold neo4j_check_known_hosts
  rw [if_pos hcond]

theorem c10_hostname_guard_witness :
    (List.replicate 256 97 = ([] : List Byte) ∨
      256 ≤ (List.replicate 256 97 : List Byte).length) ∧
    neo4j_check_known_hosts (List.replicate 256 97) 7687 [65] [] none .okRead
        none .success
      = { ret := -1, fileAfter := none, callbackInvoked := false,
          storeRead := false } :=
  ⟨Or.inr (by simp), c10_hostname_guard (List.replicate 256 97) 7687 [65] [] none
    .okRead none .success (Or.inr (by simp))⟩

/-- C8: when the presented fingerprint is unrecognized (no entry) or
mismatched (entry with a different fingerprint) and no callback is installed,
`neo4j_check_known_hosts` returns 1 (rejected) and leaves the known-hosts
file exactly as it was — in particular a fresh (absent) store stays absent. -/
theorem c8_no_callback_rejects (hostname : List Byte) (port : Nat)
    (fingerprint garbage : List Byte) (fileBefore : Option (List Byte))
    (rev : ReadEvent) (uev : ReplaceEvent)
    (hhost : hostname.length < 256 ∧ hostname ≠ [])
    (hio : retrieve_stored_fingerprint fileBefore rev (hostLabel hostname port) 60
      ≠ .ioError)
    (hne : ∀ e, retrieve_stored_fingerprint fileBefore rev (hostLabel hostname port) 60
      = .found e → e ≠ fingerprint) :
    neo4j_check_known_hosts hostname port fingerprint garbage fileBefore rev none uev
      = { ret := 1, fileAfter := fileBefore, callbackInvoked := false,
          storeRead := true } := by
  cases hlr : retrieve_stored_fingerprint fileBefore rev (hostLabel hostname port) 60 with
  | found e =>
    have he := hne e hlr
    simp only [neo4j_check_known_hosts, hlr]
    rw [if_neg (not_not_intro hhost), if_pos (Or.inr he.symm)]
  | notFound =>
    simp only [neo4j_check_known_hosts, hlr]
    rw [if_neg (not_not_intro hhost), if_pos (Or.inl (by decide))]
  | ioError =>
    exact absurd hlr hio

theorem c8_no_callback_rejects_witness :
    ([100, 98, 46, 101, 120, 97, 109, 112, 108, 101] : List Byte).length < 256 ∧
    ([100, 98, 46, 101, 120, 97, 109, 112, 108, 101] : List Byte) ≠ [] ∧
    neo4j_check_known_hosts [100, 98, 46, 101, 120, 97, 109, 112, 108, 101] 7687
        [65, 65, 58, 66, 66] [] none .okRead none .success
      = { ret := 1, fileAfter := none, callbackInvoked := false,
          storeRead := true } :=
  ⟨by decide, by decide,
    c8_no_callback_rejects [100, 98, 46, 101, 120, 97, 109, 112, 108, 101] 7687
      [65, 65, 58, 66, 66] [] none .okRead .success ⟨by decide, by decide⟩
      (by decide) (fun e h => nomatch h)⟩

/-- C6 (counterexample): the store holds an entry for `h:1` whose stored
fingerprint (60 bytes of 'A') equals the presented fingerprint, yet the call
returns 1 instead of 0: `retrieve_stored_fingerprint` truncates the stored
fingerprint to the 60-byte buffer minus one, so the comparison fails and the
mismatch path is taken. -/
theorem c6_counterexample :
    ([104, 58, 49, 32] ++ (List.replicate 60 65 ++ [10]) : List Byte)
      = entryLine (hostLabel [104] 1) (List.replicate 60 65) ∧
    (neo4j_check_known_hosts [104] 1 (List.replicate 60 65) []
        (some ([104, 58, 49, 32] ++ (List.replicate 60 65 ++ [10]))) .okRead
        none .success).ret = 1 := by
  constructor
  · decide
  · decide

/-- C6 (amended): if the store holds an entry for the host label whose stored
fingerprint equals the presented fingerprint AND the fingerprint is shorter
than the 60-byte lookup buffer (`NEO4J_MAX_FINGERPRINT_LENGTH`), then
`neo4j_check_known_hosts` returns 0 (verified), the callback is never
invoked, and the file is untouched. -/
theorem c6_verified_amended (hostname : List Byte) (port : Nat)
    (fingerprint garbage : List Byte) (c : List Byte)
    (callback : Option (Reason → Int)) (uev : ReplaceEvent)
    (hhost : hostname.length < 256 ∧ hostname ≠ [])
    (hstore : StoreHolds c (hostLabel hostname port) fingerprint)
    (hlen : fingerprint.length < 60) :
    neo4j_check_known_hosts hostname port fingerprint garbage (some c) .okRead
        callback uev
      = { ret := 0, fileAfter := some c, callbackInvoked := false,
          storeRead := true } := by
  have hlr : retrieve_stored_fingerprint (some c) .okRead (hostLabel hostname port) 60
      = .found (fingerprint.take (60 - 1)) :=
    retrieve_of_StoreHolds c _ fingerprint 60 hstore
  have htake : fingerprint.take (60 - 1) = fingerprint :=
    List.take_of_length_le (by omega)
  rw [htake] at hlr
  simp only [neo4j_check_known_hosts, hlr]
  rw [if_neg (not_not_intro hhost), if_neg (by simp)]

theorem c6_verified_amended_witness :
    ([104] : List Byte).length < 256 ∧ ([104] : List Byte) ≠ [] ∧
    ([65, 65] : List Byte).length < 60 ∧
    neo4j_check_known_hosts [104] 1 [65, 65] [] (some [104, 58, 49, 32, 65, 65, 10])
        .okRead none .success
      = { ret := 0, fileAfter := some [104, 58, 49, 32, 65, 65, 10],
          callbackInvoked := false, storeRead := true } :=
  ⟨by decide, by decide, by decide,
    c6_verified_amended [104] 1 [65, 65] [] [104, 58, 49, 32, 65, 65, 10] none
      .success ⟨by decide, by decide⟩
      ⟨[], [], by simp, by decide, by decide, by decide, by decide⟩
      (by decide)⟩

/-- The reason passed to the callback, as computed by
`reason = (result == 0) ? MISMATCH : UNRECOGNIZED` in the C code. -/
def reasonFor : LookupResult → Reason
  | .found _ => Reason.mismatch
  | _ => Reason.unrecognized

/-- Reduction of `neo4j_check_known_hosts` on the unverified path with a
callback installed: the outcome is decided by the callback's action. -/
theorem check_cb_eq (hostname : List Byte) (port : Nat)
    (fingerprint garbage : List Byte) (fileBefore : Option (List Byte))
    (rev : ReadEvent) (cb : Reason → Int) (uev : ReplaceEvent)
    (hhost : hostname.length < 256 ∧ hostname ≠ [])
    (hio : retrieve_stored_fingerprint fileBefore rev (hostLabel hostname port) 60
      ≠ .ioError)
    (hne : ∀ e, retrieve_stored_fingerprint fileBefore rev (hostLabel hostname port) 60
      = .found e → e ≠ fingerprint) :
    neo4j_check_known_hosts hostname port fingerprint garbage fileBefore rev
        (some cb) uev
      = (if cb (reasonFor (retrieve_stored_fingerprint fileBefore rev
            (hostLabel hostname port) 60)) = HOST_VERIFICATION_TRUST then
          (if (update_stored_fingerprint fileBefore (hostLabel hostname port)
                fingerprint uev).ret ≠ 0 then
            { ret := -1,
              fileAfter := (update_stored_fingerprint fileBefore
                (hostLabel hostname port) fingerprint uev).target,
              callbackInvoked := true, storeRead := true }
          else
            { ret := 0,
              fileAfter := (update_stored_fingerprint fileBefore
                (hostLabel hostname port) fingerprint uev).target,
              callbackInvoked := true, storeRead := true })
        else if cb (reasonFor (retrieve_stored_fingerprint fileBefore rev
            (hostLabel hostname port) 60)) = HOST_VERIFICATION_ACCEPT_ONCE then
          { ret := 0, fileAfter := fileBefore, callbackInvoked := true,
            storeRead := true }
        else
          { ret := 1, fileAfter := fileBefore, callbackInvoked := true,
            storeRead := true }) := by
  cases hlr : retrieve_stored_fingerprint fileBefore rev (hostLabel hostname port) 60 with
  | found e =>
    have he := hne e hlr
    simp only [neo4j_check_known_hosts, hlr, reasonFor]
    rw [if_neg (not_not_intro hhost), if_pos (Or.inr he.symm)]
    simp
  | notFound =>
    simp only [neo4j_check_known_hosts, hlr, reasonFor]
    rw [if_neg (not_not_intro hhost), if_pos (Or.inl (by decide))]
    simp
  | ioError =>
    exact absurd hlr hio

/-- C7: whenever the unverified-host callback runs, its return value decides
the outcome: `TRUST` persists the presented fingerprint through the store
rewrite and returns 0 (a persistence failure turns the call into -1 with the
file untouched); `ACCEPT_ONCE` returns 0 with the file unchanged; any other
action returns 1 (rejected) with the file unchanged. -/
theorem c7_callback_outcomes (hostname : List Byte) (port : Nat)
    (fingerprint garbage : List Byte) (fileBefore : Option (List Byte))
    (rev : ReadEvent) (cb : Reason → Int) (uev : ReplaceEvent)
    (hhost : hostname.length < 256 ∧ hostname ≠ [])
    (hio : retrieve_stored_fingerprint fileBefore rev (hostLabel hostname port) 60
      ≠ .ioError)
    (hne : ∀ e, retrieve_stored_fingerprint fileBefore rev (hostLabel hostname port) 60
      = .found e → e ≠ fingerprint) :
    (cb (reasonFor (retrieve_stored_fingerprint fileBefore rev
        (hostLabel hostname port) 60)) = HOST_VERIFICATION_TRUST →
      ((update_stored_fingerprint fileBefore (hostLabel hostname port)
          fingerprint uev).ret = 0 →
        neo4j_check_known_hosts hostname port fingerprint garbage fileBefore rev
            (some cb) uev
          = { ret := 0,
              fileAfter := some (replaceContent fileBefore
                (hostLabel hostname port) fingerprint),
              callbackInvoked := true, storeRead := true }) ∧
      ((update_stored_fingerprint fileBefore (hostLabel hostname port)
          fingerprint uev).ret ≠ 0 →
        neo4j_check_known_hosts hostname port fingerprint garbage fileBefore rev
            (some cb) uev
          = { ret := -1, fileAfter := fileBefore, callbackInvoked := true,
              storeRead := true })) ∧
    (cb (reasonFor (retrieve_stored_fingerprint fileBefore rev
        (hostLabel hostname port) 60)) = HOST_VERIFICATION_ACCEPT_ONCE →
      neo4j_check_known_hosts hostname port fingerprint garbage fileBefore rev
          (some cb) uev
        = { ret := 0, fileAfter := fileBefore, callbackInvoked := true,
            storeRead := true }) ∧
    (cb (reasonFor (retrieve_stored_fingerprint fileBefore rev
        (hostLabel hostname port) 60)) ≠ HOST_VERIFICATION_TRUST →
     cb (reasonFor (retrieve_stored_fingerprint fileBefore rev
        (hostLabel hostname port) 60)) ≠ HOST_VERIFICATION_ACCEPT_ONCE →
      neo4j_check_known_hosts hostname port fingerprint garbage fileBefore rev
          (some cb) uev
        = { ret := 1, fileAfter := fileBefore, callbackInvoked := true,
            storeRead := true }) := by
  have hbase := check_cb_eq hostname port fingerprint garbage fileBefore rev cb uev
    hhost hio hne
  refine ⟨fun ht => ⟨fun h0 => ?_, fun hf => ?_⟩, fun ha => ?_, fun ht ha => ?_⟩
  · rw [hbase, if_pos ht, if_neg (by rw [h0]; exact fun hc => hc rfl)]
    have := update_ret_zero fileBefore (hostLabel hostname port) fingerprint uev h0
    rw [this]
    rfl
  · rw [hbase, if_pos ht, if_pos hf]
    have := update_fail_frame fileBefore (hostLabel hostname port) fingerprint uev hf
    rw [this]
  · rw [hbase]
    by_cases ht : cb (reasonFor (retrieve_stored_fingerprint fileBefore rev
        (hostLabel hostname port) 60)) = HOST_VERIFICATION_TRUST
    · rw [ha] at ht
      exact absurd ht (by decide)
    · rw [if_neg ht, if_pos ha]
  · rw [hbase, if_neg ht, if_neg ha]

theorem c7_callback_outcomes_witness :
    ((fun _ : Reason => (1 : Int)) (reasonFor (retrieve_stored_fingerprint none
        .okRead (hostLabel [104] 1) 60)) = HOST_VERIFICATION_ACCEPT_ONCE) ∧
    neo4j_check_known_hosts [104] 1 [65] [] none .okRead
        (some (fun _ => (1 : Int))) .success
      = { ret := 0, fileAfter := none, callbackInvoked := true,
          storeRead := true } :=
  ⟨by decide,
    (c7_callback_outcomes [104] 1 [65] [] none .okRead (fun _ => (1 : Int))
      .success ⟨by decide, by decide⟩ (by decide) (fun e h => nomatch h)).2.1
      (by decide)⟩

/-- C1 (code bug): when the fingerprint-store lookup fails with an I/O error,
`neo4j_check_known_hosts` does NOT return -1.  The C code never tests
`result < 0` after `retrieve_stored_fingerprint`; with `result == -1` the
condition `result > 0 || strcmp(fingerprint, existing) != 0` compares the
presented fingerprint against the *uninitialized* stack buffer `existing`,
and (whenever they differ) the call proceeds into the unrecognized/mismatch
decision logic: here, with no callback, it returns 1, and with a callback
installed the callback IS invoked.  The claim (and the spec) say the call
must return -1 without reaching that logic. -/
theorem c1_store_error_not_propagated :
    retrieve_stored_fingerprint (some []) .openErr (hostLabel [104] 1) 60
      = .ioError ∧
    neo4j_check_known_hosts [104] 1 [65, 65] [] (some []) .openErr none .success
      = { ret := 1, fileAfter := some [], callbackInvoked := false,
          storeRead := true } ∧
    neo4j_check_known_hosts [104] 1 [65, 65] [] (some []) .openErr
        (some (fun _ => (0 : Int))) .success
      = { ret := 1, fileAfter := some [], callbackInvoked := true,
          storeRead := true } := by
  refine ⟨by decide, by decide, by decide⟩

/-- C3: if `update_stored_fingerprint` fails at any step (any outcome other
than full success, recognizable by a nonzero return), then it returns -1, the
temp file is not left behind, every file handle is closed, the target file is
byte-for-byte unchanged, and consequently a subsequent lookup (with any label,
buffer size and I/O outcome) returns exactly what it returned before the
call.  No partial write ever reaches the target file, which is only ever
touched by the final atomic `rename`. -/
theorem c3_update_failure_safe (target : Option (List Byte)) (host fp : List Byte)
    (ev : ReplaceEvent)
    (hfail : (update_stored_fingerprint target host fp ev).ret ≠ 0) :
    (update_stored_fingerprint target host fp ev).ret = -1 ∧
    (update_stored_fingerprint target host fp ev).target = target ∧
    (update_stored_fingerprint target host fp ev).tempLeft = false ∧
    (update_stored_fingerprint target host fp ev).openHandles = 0 ∧
    ∀ (rev : ReadEvent) (label : List Byte) (n : Nat),
      retrieve_stored_fingerprint (update_stored_fingerprint target host fp ev).target
          rev label n
        = retrieve_stored_fingerprint target rev label n := by
  have h := update_fail_frame target host fp ev hfail
  rw [h]
  exact ⟨rfl, rfl, rfl, rfl, fun _ _ _ => rfl⟩

theorem c3_update_failure_safe_witness :
    (update_stored_fingerprint (some [120]) [104, 58, 49] [65] .renameErr).ret ≠ 0 ∧
    ((update_stored_fingerprint (some [120]) [104, 58, 49] [65] .renameErr).ret = -1 ∧
     (update_stored_fingerprint (some [120]) [104, 58, 49] [65] .renameErr).target
        = some [120] ∧
     (update_stored_fingerprint (some [120]) [104, 58, 49] [65] .renameErr).tempLeft
        = false ∧
     (update_stored_fingerprint (some [120]) [104, 58, 49] [65] .renameErr).openHandles
        = 0 ∧
     ∀ (rev : ReadEvent) (label : List Byte) (n : Nat),
       retrieve_stored_fingerprint
           (update_stored_fingerprint (some [120]) [104, 58, 49] [65] .renameErr).target
           rev label n
         = retrieve_stored_fingerprint (some [120]) rev label n) :=
  ⟨by decide,
    c3_update_failure_safe (some [120]) [104, 58, 49] [65] .renameErr (by decide)⟩

/-- C2 (counterexample): replace-then-lookup does NOT return exactly the
stored fingerprint for every fingerprint length: with the 60-byte lookup
buffer used by the verifier, a 60-byte fingerprint comes back truncated to 59
bytes. -/
theorem c2_roundtrip_counterexample :
    retrieve_stored_fingerprint
        (update_stored_fingerprint none [104, 58, 49] (List.replicate 60 65)
          .success).target .okRead [104, 58, 49] 60
      ≠ LookupResult.found (List.replicate 60 65) ∧
    retrieve_stored_fingerprint
        (update_stored_fingerprint none [104, 58, 49] (List.replicate 60 65)
          .success).target .okRead [104, 58, 49] 60
      = LookupResult.found (List.replicate 59 65) := by
  refine ⟨by decide, by decide⟩

/-- C2 (amended): after a successful `replace(file, host, fp)` on a wellformed
file (absent, or newline-terminated lines of at most 1023 bytes with no NUL
bytes), with a NUL- and newline-free host label, a whitespace- and NUL-free
fingerprint, and an entry line that fits one 1024-byte read, `lookup` into an
`n`-byte buffer returns exactly the first `min(|fp|, n-1)` bytes of `fp` —
i.e. `fp` truncated to the buffer size minus one, and `fp` itself only when
`|fp| ≤ n-1`. -/
theorem c2_roundtrip_amended (target : Option (List Byte)) (host fp : List Byte)
    (n : Nat)
    (hwf : target = none ∨
      ∃ ls : List (List Byte), target = some ls.flatten ∧ ∀ l ∈ ls, WFLine l)
    (hhost : ∀ b ∈ host, b ≠ 10 ∧ b ≠ 0)
    (hfp : ∀ b ∈ fp, isspaceB b = false ∧ b ≠ 0)
    (hfit : host.length + 1 + fp.length + 1 ≤ 1023)
    (_hn : 1 ≤ n) :
    retrieve_stored_fingerprint
        (update_stored_fingerprint target host fp .success).target .okRead host n
      = .found (fp.take (n - 1)) := by
  show retrieve_stored_fingerprint (some (replaceContent target host fp))
    .okRead host n = _
  exact retrieve_replace target host fp n hwf hhost hfp hfit

theorem c2_roundtrip_amended_witness :
    ((none : Option (List Byte)) = none ∨
      ∃ ls : List (List Byte), (none : Option (List Byte)) = some ls.flatten ∧
        ∀ l ∈ ls, WFLine l) ∧
    retrieve_stored_fingerprint
        (update_stored_fingerprint none [104, 58, 49] [65, 66, 67] .success).target
        .okRead [104, 58, 49] 3
      = .found [65, 66] :=
  ⟨Or.inl rfl,
    c2_roundtrip_amended none [104, 58, 49] [65, 66, 67] 3 (Or.inl rfl)
      (by decide) (by decide) (by decide) (by decide)⟩

/-- C4 (counterexample): after a successful replace on a file whose last line
has no terminating newline, the appended entry merges with that line, and
scanning the resulting file yields ZERO lines whose prefix is the host label
followed by whitespace — not exactly one.  Original file: the single byte
`x` with no newline; resulting file is the single line `xh:1 AA\n`. -/
theorem c4_unique_counterexample :
    (update_stored_fingerprint (some [120]) [104, 58, 49] [65, 65] .success).target
      = some [120, 104, 58, 49, 32, 65, 65, 10] ∧
    (linesOf [120, 104, 58, 49, 32, 65, 65, 10]).countP
        (fun l => lineMatches [104, 58, 49] l) = 0 := by
  refine ⟨by decide, by decide⟩

/-- C4 (amended): after a successful replace on a wellformed file (absent not
needed here: newline-terminated lines of at most 1023 bytes, no NUL bytes),
with a NUL- and newline-free host label, a whitespace- and NUL-free
fingerprint and an entry that fits one 1024-byte read, scanning the resulting
file yields exactly one line whose prefix is the host label followed by
whitespace: every pre-existing matching line is dropped and the one new entry
is appended. -/
theorem c4_unique_amended (ls : List (List Byte)) (host fp : List Byte)
    (h : ∀ l ∈ ls, WFLine l)
    (hhost : ∀ b ∈ host, b ≠ 10 ∧ b ≠ 0)
    (hfp : ∀ b ∈ fp, isspaceB b = false ∧ b ≠ 0)
    (hfit : host.length + 1 + fp.length + 1 ≤ 1023) :
    (linesOf (replaceContent (some ls.flatten) host fp)).countP
        (fun l => lineMatches host l) = 1 := by
  rw [linesOf_replace ls host fp h hhost hfp hfit, List.countP_append]
  have h0 : (ls.filter (fun l => !(lineMatches host l))).countP
      (fun l => lineMatches host l) = 0 := by
    rw [List.countP_eq_zero]
    intro l hl
    have hprop := List.of_mem_filter hl
    simp only [Bool.not_eq_true'] at hprop
    simp [hprop]
  have h1 : ([entryLine host fp] : List (List Byte)).countP
      (fun l => lineMatches host l) = 1 := by
    simp [List.countP_cons, lineMatches_entry host fp]
  rw [h0, h1]

theorem c4_unique_amended_witness :
    (∀ l ∈ ([[120, 10]] : List (List Byte)), WFLine l) ∧
    (linesOf (replaceContent (some [120, 10]) [104, 58, 49] [65])).countP
        (fun l => lineMatches [104, 58, 49] l) = 1 := by
  have hwf : ∀ l ∈ ([[120, 10]] : List (List Byte)), WFLine l := by
    intro l hl
    simp only [List.mem_singleton] at hl
    subst hl
    exact ⟨[120], rfl, by decide, by decide⟩
  exact ⟨hwf, c4_unique_amended [[120, 10]] [104, 58, 49] [65] hwf (by decide)
    (by decide) (by decide)⟩

/-- A full-buffer `fgets` read: if the first `k` bytes contain no newline,
exactly `k` bytes are consumed. -/
theorem takeLine_nonl (k : Nat) (a rest : List Byte)
    (ha : ∀ c ∈ a, c ≠ 10) (hlen : a.length = k) :
    takeLine k (a ++ rest) = (a, rest) := by
  induction a generalizing k with
  | nil =>
    subst hlen
    cases rest with
    | nil => rfl
    | cons c s => rfl
  | cons c a ih =>
    subst hlen
    have hc : c ≠ 10 := ha c (by simp)
    have hrec : takeLine a.length (a ++ rest) = (a, rest) :=
      ih a.length (fun d hd => ha d (by simp [hd])) rfl
    simp only [List.length_cons, List.cons_append, takeLine, if_neg hc,
      List.append_eq, hrec]

/-- Reading one full 1023-byte newline-free chunk with `fgets`. -/
theorem chunksAux_chunk (f : Nat) (a rest : List Byte)
    (ha : ∀ c ∈ a, c ≠ 10) (hlen : a.length = 1023) :
    chunksAux (f + 1) (a ++ rest) = a :: chunksAux f rest := by
  have htl : takeLine 1023 (a ++ rest) = (a, rest) := takeLine_nonl 1023 a rest ha hlen
  cases a with
  | nil => simp at hlen
  | cons c as =>
    simp only [List.cons_append] at htl ⊢
    simp only [chunksAux, htl]

/-- The first 1023 bytes of the C5 counterexample file: `"x:2 " ++ 'A'*1019`,
one full `fgets` buffer with no newline. -/
def c5k1 : List Byte := [120, 58, 50, 32] ++ List.replicate 1019 65

/-- The C5 counterexample file: one single line of 1029 bytes,
`"x:2 " ++ 'A'*1019 ++ "h:1 b\n"`, keyed by `x:2`.  Reading it takes two
`fgets` calls: the 1023-byte chunk `c5k1` and then the chunk `"h:1 b\n"`,
which happens to begin with the label `h:1` plus whitespace. -/
def c5orig : List Byte := c5k1 ++ [104, 58, 49, 32, 98, 10]

/-- What `update_stored_fingerprint` on `c5orig` with host `h:1` and
fingerprint `FF` actually produces: the continuation chunk of the long `x:2`
line is dropped (it matches `h:1` plus whitespace), so the `x:2` line is
corrupted and fused with the new entry. -/
def c5new : List Byte := c5k1 ++ [104, 58, 49, 32, 70, 70, 10]

theorem c5k1_no10 : ∀ c ∈ c5k1, c ≠ 10 := by
  intro c hc
  rcases List.mem_append.mp hc with h | h
  · have : c = 120 ∨ c = 58 ∨ c = 50 ∨ c = 32 := by simpa using h
    rcases this with rfl | rfl | rfl | rfl <;> decide
  · have : c = 65 := List.eq_of_mem_replicate h
    subst this
    decide

theorem c5k1_len : c5k1.length = 1023 := by simp [c5k1]

theorem c5k1_ne0 : ∀ c ∈ c5k1, c ≠ 0 := by
  intro c hc
  rcases List.mem_append.mp hc with h | h
  · have : c = 120 ∨ c = 58 ∨ c = 50 ∨ c = 32 := by simpa using h
    rcases this with rfl | rfl | rfl | rfl <;> decide
  · have : c = 65 := List.eq_of_mem_replicate h
    subst this
    decide

theorem c5orig_chunks : chunks c5orig = [c5k1, [104, 58, 49, 32, 98, 10]] := by
  have hlen : c5orig.length = 1028 + 1 := by simp [c5orig, c5k1]
  show chunksAux c5orig.length c5orig = _
  rw [hlen]
  show chunksAux (1028 + 1) (c5k1 ++ [104, 58, 49, 32, 98, 10]) = _
  rw [chunksAux_chunk 1028 c5k1 _ c5k1_no10 c5k1_len]
  have h2 : chunksAux (1027 + 1) ([104, 58, 49, 32, 98] ++ (10 :: []))
      = ([104, 58, 49, 32, 98] ++ [10]) :: chunksAux 1027 [] :=
    chunksAux_line_cons 1027 [104, 58, 49, 32, 98] [] (by decide) (by decide)
  simp only [List.append_nil] at h2
  show c5k1 :: chunksAux (1027 + 1) ([104, 58, 49, 32, 98] ++ (10 :: [])) = _
  rw [h2]
  rfl

theorem c5new_eq_replace :
    replaceContent (some c5orig) [104, 58, 49] [70, 70] = c5new := by
  show ((keptChunks c5orig [104, 58, 49]).map cstr).flatten
    ++ entryLine [104, 58, 49] [70, 70] = c5new
  have hkept : keptChunks c5orig [104, 58, 49] = [c5k1] := by
    unfold keptChunks
    rw [c5orig_chunks]
    have hm1 : lineMatches [104, 58, 49] (cstr c5k1) = false := by
      rw [cstr_eq_self c5k1 c5k1_ne0]
      have : ([104, 58, 49] : List Byte).isPrefixOf c5k1 = false := by
        show ([104, 58, 49] : List Byte).isPrefixOf
          ([120, 58, 50, 32] ++ List.replicate 1019 65) = false
        rfl
      simp [lineMatches, this]
    have hm2 : lineMatches [104, 58, 49] (cstr [104, 58, 49, 32, 98, 10]) = true := by
      decide
    simp [List.filter, hm1, hm2]
  rw [hkept]
  have hcstr : cstr c5k1 = c5k1 := cstr_eq_self c5k1 c5k1_ne0
  simp [hcstr, c5new, entryLine]

theorem c5orig_single_line : linesOf c5orig = [c5orig] := by
  have hnl : NLLine c5orig := by
    refine ⟨c5k1 ++ [104, 58, 49, 32, 98], by simp [c5orig], ?_⟩
    intro c hc
    rcases List.mem_append.mp hc with h | h
    · exact c5k1_no10 c h
    · have : c = 104 ∨ c = 58 ∨ c = 49 ∨ c = 32 ∨ c = 98 := by simpa using h
      rcases this with rfl | rfl | rfl | rfl | rfl <;> decide
  have h1 := linesOf_line_cons c5orig [] hnl
  rw [List.append_nil] at h1
  have h2 : linesOf ([] : List Byte) = [] := rfl
  rw [h2] at h1
  exact h1

theorem c5new_single_line : linesOf c5new = [c5new] := by
  have hnl : NLLine c5new := by
    refine ⟨c5k1 ++ [104, 58, 49, 32, 70, 70], by simp [c5new], ?_⟩
    intro c hc
    rcases List.mem_append.mp hc with h | h
    · exact c5k1_no10 c h
    · have : c = 104 ∨ c = 58 ∨ c = 49 ∨ c = 32 ∨ c = 70 := by simpa using h
      rcases this with rfl | rfl | rfl | rfl | rfl <;> decide
  have h1 := linesOf_line_cons c5new [] hnl
  rw [List.append_nil] at h1
  have h2 : linesOf ([] : List Byte) = [] := rfl
  rw [h2] at h1
  exact h1

theorem c5orig_ne_c5new : c5orig ≠ c5new := by
  intro h
  have hlen : c5orig.length = c5new.length := congrArg List.length h
  simp [c5orig, c5new, c5k1] at hlen

/-- C5 (counterexample): `replace(file, "h:1", "FF")` modifies the single
pre-existing line of the file, which is keyed by the distinct label `x:2` but
is longer than the 1024-byte line buffer: its second `fgets` chunk begins
with `"h:1 "` followed by whitespace and is silently dropped by the rewrite
loop, so the over-long line does not pass through verbatim — it is absent
from the rewritten file. -/
theorem c5_frame_counterexample :
    lineMatches [120, 58, 50] c5orig = true ∧
    ([120, 58, 50] : List Byte) ≠ [104, 58, 49] ∧
    linesOf c5orig = [c5orig] ∧
    (update_stored_fingerprint (some c5orig) [104, 58, 49] [70, 70]
        .success).target = some c5new ∧
    c5orig ∉ linesOf c5new := by
  refine ⟨?_, by decide, c5orig_single_line, ?_, ?_⟩
  · have hpre : ([120, 58, 50] : List Byte).isPrefixOf c5orig = true := rfl
    have hget : c5orig.get? 3 = some 32 := rfl
    unfold lineMatches
    rw [hpre]
    show (true && match c5orig.get? 3 with
      | some c => isspaceB c
      | none => false) = true
    rw [hget]
    decide
  · show some (replaceContent (some c5orig) [104, 58, 49] [70, 70]) = some c5new
    rw [c5new_eq_replace]
  · rw [c5new_single_line]
    intro h
    rcases List.mem_singleton.mp h with h1
    exact c5orig_ne_c5new h1

/-- C5 (amended): `replace(file, host1, fp1)` leaves every line keyed by a
distinct whitespace-free label `host2` present and unmodified, PROVIDED every
line of the file fits the 1024-byte line buffer (at most 1023 bytes including
the newline).  Over-long lines are read and rewritten in several `fgets`
chunks, each of which is prefix-tested independently, so a continuation chunk
beginning with `host1` plus whitespace is dropped and the over-long line does
not pass through verbatim (see the counterexample). -/
theorem c5_frame_amended (ls : List (List Byte)) (host1 host2 fp1 L : List Byte)
    (hwf : ∀ l ∈ ls, WFLine l)
    (h1 : ∀ c ∈ host1, isspaceB c = false ∧ c ≠ 0)
    (h2 : ∀ c ∈ host2, isspaceB c = false)
    (hne : host1 ≠ host2)
    (hfp : ∀ b ∈ fp1, isspaceB b = false ∧ b ≠ 0)
    (hfit : host1.length + 1 + fp1.length + 1 ≤ 1023)
    (hL : L ∈ ls) (hkey : lineMatches host2 L = true) :
    L ∈ linesOf (replaceContent (some ls.flatten) host1 fp1) := by
  have hh1 : ∀ b ∈ host1, b ≠ 10 ∧ b ≠ 0 := by
    intro b hb
    have hws := (h1 b hb).1
    refine ⟨fun hb10 => ?_, (h1 b hb).2⟩
    subst hb10
    simp [isspaceB] at hws
  rw [linesOf_replace ls host1 fp1 hwf hh1 hfp hfit]
  apply List.mem_append_left
  apply List.mem_filter.mpr
  refine ⟨hL, ?_⟩
  have hdis := lineMatches_disjoint host1 host2 L (fun c hc => (h1 c hc).1) h2
    hne hkey
  simp [hdis]

theorem c5_frame_amended_witness :
    (∀ l ∈ ([[120, 58, 50, 32, 66, 10]] : List (List Byte)), WFLine l) ∧
    [120, 58, 50, 32, 66, 10]
      ∈ linesOf (replaceContent (some [120, 58, 50, 32, 66, 10]) [104, 58, 49] [70]) := by
  have hwf : ∀ l ∈ ([[120, 58, 50, 32, 66, 10]] : List (List Byte)), WFLine l := by
    intro l hl
    simp only [List.mem_singleton] at hl
    subst hl
    exact ⟨[120, 58, 50, 32, 66], rfl, by decide, by decide⟩
  exact ⟨hwf, c5_frame_amended [[120, 58, 50, 32, 66, 10]] [104, 58, 49]
    [120, 58, 50] [70] [120, 58, 50, 32, 66, 10] hwf (by decide) (by decide)
    (by decide) (by decide) (by decide) (by simp) (by decide)⟩
